import Mathlib

/-!
Verification of the AutoTopicSum backend core: a shallow embedding of the
aggregation / keyword-canonicalization / timeline pipeline
(`app/core/aggregator.py`, `app/core/bert_encoder.py`,
`app/core/timeline_generator.py`, `app/core/base_source.py`), together with
theorems settling the behavioural claims about it.

Modelling conventions:
- Python strings are Lean `String`s (a Python `str` is a sequence of code
  points, matching Lean `Char`s for the inputs involved); `len` is
  `String.length`, `<` on strings is code-point lexicographic order.
- Python floats are modelled as exact rationals `ℚ` (every constant involved
  is a small ratio; no comparison in the modelled paths is close enough to
  rounding error for the distinction to matter on the inputs we evaluate).
- The external sentence-transformers embedding model is not part of the
  repository.  Functions are therefore embedded twice where relevant: once in
  the documented degraded configuration (model unavailable, character-level
  similarity only), and once parameterized by a semantic-similarity oracle
  standing for the model output.
- Raising Python code is embedded with `Except`.
-/

namespace AutoTopicSum

/-! ## Python string primitives -/

/-- Python whitespace for `str.strip()` (the ASCII part; the inputs involved
contain no exotic Unicode whitespace). -/
def pyWhitespace (c : Char) : Bool :=
  c = ' ' || c = '\t' || c = '\n' || c = '\r' || c = '\x0b' || c = '\x0c'

/-- Python `str.strip()` on a list of characters. -/
def pyStripList (l : List Char) : List Char :=
  ((l.dropWhile pyWhitespace).reverse.dropWhile pyWhitespace).reverse

/-- Python `str.strip()`. -/
def pyStrip (s : String) : String :=
  ⟨pyStripList s.data⟩

/-- Python substring test `a in b` on character lists (contiguous occurrence;
the empty list is a substring of everything, as in Python). -/
def subSeq (a b : List Char) : Bool :=
  b.tails.any (fun t => a.isPrefixOf t)

/-- Python substring test `a in b` for strings. -/
def pySubstr (a b : String) : Bool :=
  subSeq a.data b.data

/-- The separator used by the keyword fields. -/
def slashChar : Char := '/'

/-- Python `value.split("/")` (keeps empty pieces). -/
def splitSlashAux : List Char → List Char → List (List Char)
  | [], acc => [acc.reverse]
  | c :: cs, acc =>
      if c = slashChar then acc.reverse :: splitSlashAux cs []
      else splitSlashAux cs (c :: acc)

/-- `[k.strip() for k in value.split("/") if k.strip()]` — the keyword list of
a slash-delimited field value. -/
def splitKeywords (v : String) : List String :=
  (splitSlashAux v.data []).filterMap (fun p =>
    let q := pyStripList p
    if q = [] then none else some ⟨q⟩)

/-- Python code-point lexicographic `<` on strings, as a Boolean. -/
def lexLtChars : List Char → List Char → Bool
  | [], [] => false
  | [], _ :: _ => true
  | _ :: _, [] => false
  | c :: cs, d :: ds => if c < d then true else if d < c then false else lexLtChars cs ds

/-- Python tuple comparison `(len(x), x) < (len(y), y)` used by
`_choose_representative`. -/
def pyKeyLt (x y : String) : Bool :=
  x.length < y.length || (x.length = y.length && lexLtChars x.data y.data)

/-! ## difflib.SequenceMatcher (character-level fallback similarity)

`SequenceMatcher(None, a, b).ratio()` for short strings (the autojunk
heuristic only activates for sequences of 200+ elements, which never happens
for the keyword inputs): Ratcliff-Obershelp matching — repeatedly take the
longest matching contiguous block (earliest in `a`, then earliest in `b`,
among maximal ones) and recurse on both sides; the ratio is
`2 * total_matched / (len(a) + len(b))`, and `1.0` when both are empty. -/

/-- Length of the longest common prefix of two character lists. -/
def commonLen : List Char → List Char → ℕ
  | a :: as, b :: bs => if a = b then commonLen as bs + 1 else 0
  | _, _ => 0

/-- All index pairs (i, j) with i < la, j < lb, in lexicographic order. -/
def pairList (la lb : ℕ) : List (ℕ × ℕ) :=
  (List.range la).flatMap (fun i => (List.range lb).map (fun j => (i, j)))

/-- The longest matching block of `a` and `b` as `(i, j, k)`:
`a[i:i+k] = b[j:j+k]`, `k` maximal, then `i` minimal, then `j` minimal
(difflib `find_longest_match` without junk). -/
def longestBlock (a b : List Char) : ℕ × ℕ × ℕ :=
  (pairList a.length b.length).foldl
    (fun best ij =>
      let k := commonLen (a.drop ij.1) (b.drop ij.2)
      if best.2.2 < k then (ij.1, ij.2, k) else best)
    (0, 0, 0)

/-- Total number of matched characters across all matching blocks
(difflib `get_matching_blocks`), with explicit recursion fuel. -/
def matchTotal : ℕ → List Char → List Char → ℕ
  | 0, _, _ => 0
  | fuel + 1, a, b =>
      let t := longestBlock a b
      if t.2.2 = 0 then 0
      else
        matchTotal fuel (a.take t.1) (b.take t.2.1) + t.2.2 +
          matchTotal fuel (a.drop (t.1 + t.2.2)) (b.drop (t.2.1 + t.2.2))

/-- `SequenceMatcher(None, x, y).ratio()` as an exact rational. -/
def seqRatioQ (x y : String) : ℚ :=
  let a := x.data
  let b := y.data
  if a.length + b.length = 0 then 1
  else (2 * (matchTotal (a.length + b.length) a b : ℚ)) / (a.length + b.length)

/-! ## BERTEncoder similarity -/

/-- The containment heuristic of `_calculate_similarity` /
`_calculate_similarity_matrix_batch`: `ratio = shorter / longer`;
`min(0.9, 0.7 + 0.2 * ratio)` when `ratio > 0.5`, else `ratio`. -/
def containScore (la lb : ℕ) : ℚ :=
  let r : ℚ := (min la lb : ℚ) / (max la lb : ℚ)
  if 1 / 2 < r then min (9 / 10) (7 / 10 + r / 5) else r

/-- `BERTEncoder._calculate_similarity` in the degraded configuration
(sentence-transformers unavailable): exact match → 1, containment →
`containScore`, otherwise the difflib character ratio. -/
def calculateSimilarity (w1 w2 : String) : ℚ :=
  if w1 = w2 then 1
  else if pySubstr w1 w2 || pySubstr w2 w1 then containScore w1.length w2.length
  else seqRatioQ w1 w2

/-- `BERTEncoder._calculate_similarity` with the semantic model available,
parameterized by the cosine-similarity oracle `sem` standing for the
embedding model: the containment branch never consults the model, the final
branch returns `max(0.0, cosine)`. -/
def calculateSimilaritySem (sem : String → String → ℚ) (w1 w2 : String) : ℚ :=
  if w1 = w2 then 1
  else if pySubstr w1 w2 || pySubstr w2 w1 then containScore w1.length w2.length
  else max 0 (sem w1 w2)

/-- The cheap pass of `_calculate_similarity_matrix_batch` at an ordered cell:
1 for equal keywords, the containment heuristic for substring-related ones,
0 otherwise (missing indices read as `""`, never reached on code paths). -/
def heurCell (ks : List String) (i j : ℕ) : ℚ :=
  let a := ks.getD i ""
  let b := ks.getD j ""
  if a = b then 1
  else if pySubstr a b || pySubstr b a then containScore a.length b.length
  else 0

/-- `BERTEncoder._calculate_similarity_matrix_batch` in the degraded
configuration.  The code writes both `(i, j)` and `(j, i)` from the `i < j`
computation, so a cell is determined by the ordered pair
`(min i j, max i j)`: diagonal 1, then the cheap pass, and difflib ratio for
cells still at zero. -/
def simMatrixBatch (ks : List String) (i j : ℕ) : ℚ :=
  let l := min i j
  let h := max i j
  if l = h then 1
  else
    let c := heurCell ks l h
    if c = 0 then seqRatioQ (ks.getD l "") (ks.getD h "") else c

/-- `BERTEncoder._calculate_similarity_matrix_batch` with the semantic model
available, parameterized by the oracle `sem i j` standing for the cosine of
the normalized embeddings of keywords `i` and `j` (the code computes the
whole cosine matrix, clips it into [0, 1], and overwrites a cell whenever the
cell is still zero or the semantic score is larger). -/
def simMatrixBatchSem (sem : ℕ → ℕ → ℚ) (ks : List String) (i j : ℕ) : ℚ :=
  let l := min i j
  let h := max i j
  if l = h then 1
  else
    let c := heurCell ks l h
    let s := min 1 (max 0 (sem l h))
    let c2 := if c = 0 ∨ c < s then s else c
    if c2 = 0 then seqRatioQ (ks.getD l "") (ks.getD h "") else c2

/-! ## BERTEncoder special rules -/

/-- `SPECIAL_RULES["location"]` (dict order preserved). -/
def locationRules : List (String × List String) :=
  [("中国", ["中国大陆", "中国", "中国内地", "内地"]),
   ("美国", ["美国", "USA", "United States"]),
   ("英国", ["英国", "UK", "United Kingdom"]),
   ("全球", ["全球", "国际", "世界", "全世界"])]

/-- `SPECIAL_RULES["political_stance"]`. -/
def politicalStanceRules : List (String × List String) :=
  [("官方", ["官方立场", "官方", "政府立场", "官方媒体"]),
   ("中立", ["中立", "中立立场", "中间立场", "中性"]),
   ("左倾", ["左倾", "左翼", "进步主义"]),
   ("右倾", ["右倾", "右翼", "保守主义"]),
   ("自由主义", ["自由主义", "自由派", "自由市场"])]

/-- `SPECIAL_RULES["ownership"]`. -/
def ownershipRules : List (String × List String) :=
  [("国有", ["国有", "国有企业", "国有控股", "公有制", "政府所有"]),
   ("民营", ["民营", "民营企业", "私营", "私营企业", "私人所有"]),
   ("外资", ["外资", "外资控股", "外国资本"]),
   ("混合", ["混合所有制", "混合", "多元"])]

/-- `SPECIAL_RULES["category"]`. -/
def categoryRules : List (String × List String) :=
  [("新闻媒体", ["新闻媒体", "新闻机构", "新闻门户", "新闻网站"]),
   ("科技媒体", ["科技媒体", "科技博客", "科技资讯", "科技门户"]),
   ("财经媒体", ["财经媒体", "财经门户", "财经网站", "财经新闻"])]

/-- `BERTEncoder.SPECIAL_RULES` by field namespace; namespaces without rules
get the empty table (`_apply_special_rules` then acts as the identity). -/
def specialRules (ns : String) : List (String × List String) :=
  if ns = "location" then locationRules
  else if ns = "political_stance" then politicalStanceRules
  else if ns = "ownership" then ownershipRules
  else if ns = "category" then categoryRules
  else []

/-- The per-keyword rule scan of `_apply_special_rules`: the first rule whose
standard term matches exactly, whose variant list contains the keyword, or
whose variants (or standard term) stand in a substring relation with the
keyword, rewrites the keyword to the standard term. -/
def ruleFor (rules : List (String × List String)) (k : String) : Option String :=
  rules.findSome? (fun r =>
    if k = r.1 || r.2.contains k then some r.1
    else if (r.2 ++ [r.1]).any (fun v => pySubstr v k || pySubstr k v) then some r.1
    else none)

/-- `BERTEncoder._apply_special_rules`: elementwise rule rewriting. -/
def applySpecialRules (ns : String) (ks : List String) : List String :=
  ks.map (fun k => (ruleFor (specialRules ns) k).getD k)

/-! ## Clustering (sklearn AgglomerativeClustering, average linkage,
precomputed distances, distance threshold) -/

/-- `BERTEncoder._choose_representative`:
`sorted(cluster, key=lambda x: (len(x), x))[0]` — the member of minimal
length, ties broken by code-point order (first occurrence wins between equal
strings, matching the stable sort). -/
def chooseRepresentative (cluster : List String) : String :=
  match cluster with
  | [] => ""
  | c :: cs => cs.foldl (fun best x => if pyKeyLt x best then x else best) c

/-- Average-linkage distance between two clusters of point indices. -/
def avgDist (d : ℕ → ℕ → ℚ) (c1 c2 : List ℕ) : ℚ :=
  ((c1.map (fun i => (c2.map (fun j => d i j)).sum)).sum) / ((c1.length : ℚ) * c2.length)

/-- All position pairs (p, q) with p < q < n, in lexicographic order. -/
def posPairs (n : ℕ) : List (ℕ × ℕ) :=
  (List.range n).flatMap (fun p => ((List.range n).filter (fun q => p < q)).map (fun q => (p, q)))

/-- The pair of cluster positions at minimal average-linkage distance
(first such pair on ties), with that distance. -/
def bestPair (d : ℕ → ℕ → ℚ) (cs : List (List ℕ)) : Option (ℕ × ℕ × ℚ) :=
  (posPairs cs.length).foldl
    (fun best pq =>
      let dd := avgDist d (cs.getD pq.1 []) (cs.getD pq.2 [])
      match best with
      | none => some (pq.1, pq.2, dd)
      | some b => if dd < b.2.2 then some (pq.1, pq.2, dd) else best)
    none

/-- Merge the clusters at positions p < q (the merged cluster keeps the
earlier position, so clusters stay ordered by first member). -/
def mergeAt (cs : List (List ℕ)) (p q : ℕ) : List (List ℕ) :=
  ((cs.set p (cs.getD p [] ++ cs.getD q [])).eraseIdx q)

/-- Repeatedly merge the closest pair of clusters while its average-linkage
distance is below the threshold (average linkage is reducible, so the greedy
loop agrees with cutting the full linkage tree at the threshold, which is
what `AgglomerativeClustering(distance_threshold=...)` computes). -/
def avgLinkSteps (d : ℕ → ℕ → ℚ) (dthr : ℚ) : ℕ → List (List ℕ) → List (List ℕ)
  | 0, cs => cs
  | fuel + 1, cs =>
      match bestPair d cs with
      | none => cs
      | some (p, q, dd) =>
          if dd < dthr then avgLinkSteps d dthr fuel (mergeAt cs p q) else cs

/-- Average-linkage agglomerative clustering of n points with a distance
threshold, as clusters of indices ordered by first member. -/
def avgLinkClusters (d : ℕ → ℕ → ℚ) (dthr : ℚ) (n : ℕ) : List (List ℕ) :=
  avgLinkSteps d dthr n ((List.range n).map (fun i => [i]))

/-- `BERTEncoder._cluster_by_similarity` (degraded configuration, local
clustering): the returned representative list.  The clustering-statistics
and cluster-mapping bookkeeping is omitted — it does not affect the returned
value.  The cluster order (hence the representative order) follows each
cluster's first member, matching the label-first-occurrence iteration over
`clusters_dict`. -/
def clusterBySimilarity (thr : ℚ) (ks : List String) : List String :=
  if ks.length ≤ 1 then ks
  else
    (avgLinkClusters (fun i j => 1 - simMatrixBatch ks i j) (1 - thr) ks.length).map
      (fun c => chooseRepresentative (c.map (fun i => ks.getD i "")))

/-! ## encode_field -/

/-- Order-preserving deduplication (the `seen` set loop of `encode_field`). -/
def dedupFirstAux : List String → List String → List String
  | [], _ => []
  | k :: ks, seen =>
      if seen.contains k then dedupFirstAux ks seen
      else k :: dedupFirstAux ks (k :: seen)

/-- Order-preserving deduplication keeping first occurrences. -/
def dedupFirst (ks : List String) : List String :=
  dedupFirstAux ks []

/-- `BERTEncoder.SIMILARITY_THRESHOLD` (the default). -/
def SIMILARITY_THRESHOLD : ℚ := 7 / 10

/-- `BERTEncoder.encode_field` in the fresh-state configuration: no persisted
record was loaded and no prior `batch_encode_media` run stored global
clustering statistics, so the local-clustering branch is taken; semantic
model unavailable.  The `encoding_mapping` bookkeeping is omitted — it does
not affect the returned value. -/
def encodeField (thr : ℚ) (ns v : String) : String :=
  if pyStrip v = "" then v
  else
    let ks := splitKeywords v
    if ks = [] then v
    else String.intercalate "/" (dedupFirst (clusterBySimilarity thr (applySpecialRules ns ks)))

/-! ## NewsArticle and the aggregator -/

/-- `base_source.NewsArticle` plus the `filter` flag that
`aggregate_results` attaches.  `publishedAt` is an abstract timestamp
(`none` models a missing value, sorted as `datetime.min`, i.e. below every
present timestamp). -/
structure Article where
  title : String
  url : String
  source : String
  publishedAt : Option ℤ := none
  summary : String := ""
  content : String := ""
  author : String := ""
  imageUrl : String := ""
  tags : List String := []
  filter : Bool := false
deriving DecidableEq

/-- The dictionary produced by `NewsArticle.to_dict` (note: it does not
contain the `filter` flag). -/
structure ArticleDict where
  title : String
  url : String
  source : String
  publishedAt : Option ℤ
  summary : String
  content : String
  author : String
  imageUrl : String
  tags : List String
deriving DecidableEq

/-- `NewsArticle.to_dict`. -/
def toDict (a : Article) : ArticleDict :=
  ⟨a.title, a.url, a.source, a.publishedAt, a.summary, a.content, a.author, a.imageUrl, a.tags⟩

/-- `BaseNewsSource.validate_article`:
`bool(article.title and article.url and article.source)` (a Python string is
truthy iff non-empty). -/
def validateArticle (a : Article) : Bool :=
  a.title ≠ "" && a.url ≠ "" && a.source ≠ ""

/-- The URL-dedup loop of `aggregate_results`, with its `seen_urls` set. -/
def dedupByUrlAux : List Article → List String → List Article
  | [], _ => []
  | a :: rest, seen =>
      if seen.contains a.url then dedupByUrlAux rest seen
      else a :: dedupByUrlAux rest (a.url :: seen)

/-- URL-deduplication keeping the first occurrence of each url. -/
def dedupByUrl (l : List Article) : List Article :=
  dedupByUrlAux l []

/-- The sort key comparison of `aggregate_results`:
`x.published_at if x.published_at else datetime.min`, so a missing timestamp
compares below every present one. -/
def pubLt : Option ℤ → Option ℤ → Bool
  | none, none => false
  | none, some _ => true
  | some _, none => false
  | some x, some y => decide (x < y)

/-- One insertion step of a stable descending sort: x goes in front of the
first element strictly below it, hence after earlier equal keys. -/
def insDescBy (lt : α → α → Bool) (x : α) : List α → List α
  | [] => [x]
  | y :: ys => if lt y x then x :: y :: ys else y :: insDescBy lt x ys

/-- Python `list.sort(key=..., reverse=True)`: a stable descending sort. -/
def pySortDesc (lt : α → α → Bool) (l : List α) : List α :=
  l.foldl (fun acc x => insDescBy lt x acc) []

/-- Sets the `filter` flag on an article (the `news.filter = ...` mutation). -/
def setFilterFlag (b : Bool) (a : Article) : Article :=
  { a with filter := b }

/-- The aggregator default `similarity_threshold`. -/
def AGG_THRESHOLD : ℚ := 3 / 10

/-- `NewsAggregator.aggregate_results` up to (but not including) the
`to_dict` serialization: merge the per-source lists in dictionary order,
dedup by url (first wins), sort by `published_at` descending (stable), score
every title against the query (`simFn` stands for
`TextMatcher.calculate_similarity`, an external embedding-model call that
returns one score per title), and put the at-or-above-threshold articles
(flag `filter := false`) before the below-threshold ones
(flag `filter := true`), each part in sort order. -/
def aggregateRanked (simFn : String → String → ℚ) (thr : ℚ) (query : String)
    (results : List (String × List Article)) : List Article :=
  let sorted := pySortDesc (fun a b => pubLt a.publishedAt b.publishedAt)
    (dedupByUrl (results.flatMap Prod.snd))
  (sorted.filter (fun a => decide (thr ≤ simFn query a.title))).map (setFilterFlag false) ++
    (sorted.filter (fun a => ! decide (thr ≤ simFn query a.title))).map (setFilterFlag true)

/-- `NewsAggregator.aggregate_results` (the returned list of dictionaries). -/
def aggregateResults (simFn : String → String → ℚ) (thr : ℚ) (query : String)
    (results : List (String × List Article)) : List ArticleDict :=
  (aggregateRanked simFn thr query results).map toDict

/-! ## search_all -/

instance exceptDecEq {ε α : Type} [DecidableEq ε] [DecidableEq α] :
    DecidableEq (Except ε α) := fun x y =>
  match x, y with
  | .error a, .error b =>
      if h : a = b then isTrue (by rw [h]) else isFalse (by intro hc; cases hc; exact h rfl)
  | .error _, .ok _ => isFalse (by intro hc; cases hc)
  | .ok _, .error _ => isFalse (by intro hc; cases hc)
  | .ok a, .ok b =>
      if h : a = b then isTrue (by rw [h]) else isFalse (by intro hc; cases hc; exact h rfl)

/-- A registered source connector together with the outcome of its
`search(query)` call: either the article list it returns, or the exception it
raises. -/
structure SourceModel where
  name : String
  searchResult : Except String (List Article)
deriving DecidableEq

/-- `NewsAggregator._safe_search`: a raising search is caught and yields `[]`;
otherwise invalid articles are silently dropped via `validate_article`. -/
def safeSearch (s : SourceModel) : List Article :=
  match s.searchResult with
  | .error _ => []
  | .ok arts => arts.filter validateArticle

/-- Python dict assignment `d[k] = v`: updates the existing key in place or
appends a new entry (dicts preserve first-insertion order). -/
def dictInsert (d : List (String × List Article)) (k : String) (v : List Article) :
    List (String × List Article) :=
  if d.any (fun e => e.1 == k) then d.map (fun e => if e.1 == k then (e.1, v) else e)
  else d ++ [(k, v)]

/-- `NewsAggregator.search_all`: `completed` lists the registered sources in
worker completion order (`as_completed` order, a permutation of the
registered sources that is not deterministic run to run); each one
contributes its `_safe_search` result keyed by its name. -/
def searchAll (completed : List SourceModel) : List (String × List Article) :=
  completed.foldl (fun d s => dictInsert d s.name (safeSearch s)) []

/-! ## TimelineGenerator -/

/-- The article dictionaries consumed by `generate_timeline` (as produced by
the aggregation stage; `publishedAt` the serialized timestamp string, with
`""` for a missing key, as read by `a.get("published_at", "")`). -/
structure TArticle where
  title : String := ""
  summary : String := ""
  publishedAt : String := ""
  url : String := ""
  source : String := ""
deriving DecidableEq, Inhabited

/-- A timeline node; `sourceArticles` holds `(url, source, title)` triples. -/
structure TimelineNode where
  timestamp : String
  keyEvent : String
  summary : String
  sourceArticles : List (String × String × String)
deriving DecidableEq

/-- Python `s.rstrip("Z")`. -/
def rstripZ (s : String) : String :=
  ⟨(s.data.reverse.dropWhile (fun c => c = 'Z')).reverse⟩

/-- Python `s[:n]`. -/
def takeChars (n : ℕ) (s : String) : String :=
  ⟨s.data.take n⟩

/-- Elementwise mean of a list of vectors (`np.mean(..., axis=0)`). -/
def meanVec (vs : List (List ℚ)) : List ℚ :=
  match vs with
  | [] => []
  | v :: rest => (rest.foldl (fun acc w => acc.zipWith (· + ·) w) v).map (fun x => x / (vs.length : ℚ))

/-- Squared Euclidean distance of two vectors; `np.argmin` over the cluster
distances computed by `cdist` picks the same index for squared distances. -/
def sqDistQ (u v : List ℚ) : ℚ :=
  ((u.zipWith (fun a b => (a - b) * (a - b)) v).sum)

/-- `np.argmin`: index of the first minimal element. -/
def argminAux : List ℚ → ℕ → ℕ → ℚ → ℕ
  | [], _, bi, _ => bi
  | x :: xs, i, bi, bv => if x < bv then argminAux xs (i + 1) i x else argminAux xs (i + 1) bi bv

/-- `np.argmin` over a rational list (0 on the empty list, never reached). -/
def argminQ : List ℚ → ℕ
  | [] => 0
  | x :: xs => argminAux xs 1 0 x

/-- Python `min(items, key=...)` for a string key: the first element with the
minimal key. -/
def pyMinByStr (key : α → String) : List α → Option α
  | [] => none
  | x :: xs => some (xs.foldl (fun best y => if lexLtChars (key y).data (key best).data then y else best) x)

/-- The `clusters_info` grouping loop: append index i to label l's group
(groups ordered by label first occurrence). -/
def upsertGroup (g : List (ℤ × List ℕ)) (l : ℤ) (i : ℕ) : List (ℤ × List ℕ) :=
  if g.any (fun e => e.1 == l) then g.map (fun e => if e.1 == l then (e.1, e.2 ++ [i]) else e)
  else g ++ [(l, [i])]

/-- Group article indices by cluster label, skipping the HDBSCAN noise label
-1, in label-first-occurrence order. -/
def groupLabels (labels : List ℤ) : List (ℤ × List ℕ) :=
  labels.enum.foldl (fun g p => if p.2 = -1 then g else upsertGroup g p.2 p.1) []

/-- `TimelineGenerator.generate_timeline`.  The external numerical libraries
are parameters: `embedFn` is `bert_encoder.encode_docs`, `scaler` is
`RobustScaler().fit_transform` on the single time feature, `clusterer` is
`HDBSCAN(...).fit_predict` (label -1 = noise), `parse` is
`datetime.fromisoformat` (`none` = raises).  Python exceptions surface as
`Except.error`; in particular `min(timestamps)` on an empty article list
raises ValueError. -/
def generateTimeline (parse : String → Option ℤ)
    (embedFn : List String → List (List ℚ))
    (scaler : List ℚ → List ℚ)
    (clusterer : List (List ℚ) → List ℤ)
    (membersThreshold : ℕ) (timeWeight : ℚ)
    (articles : List TArticle) : Except String (List TimelineNode) := do
  let infos := articles.map (fun a => a.title ++ " " ++ takeChars 200 a.summary)
  let xsem := embedFn infos
  let ts ← articles.mapM (fun a =>
    match parse (rstripZ a.publishedAt) with
    | some t => Except.ok t
    | none => Except.error "ValueError: Invalid isoformat string")
  match ts with
  | [] => Except.error "ValueError: min() arg is an empty sequence"
  | t0 :: trest =>
    let minT := trest.foldl min t0
    let weighted := (scaler (ts.map (fun t => ((t - minT : ℤ) : ℚ) / 3600))).map (· * timeWeight)
    let xfinal := xsem.zipWith (fun v w => v ++ [w]) weighted
    let groups := groupLabels (clusterer xfinal)
    let nodes := (groups.filter (fun g => decide (membersThreshold ≤ g.2.length))).map (fun g =>
      let arts := g.2.map (fun i => articles.getD i default)
      let embs := g.2.map (fun i => xfinal.getD i [])
      let repArt := articles.getD (g.2.getD (argminQ (embs.map (sqDistQ (meanVec embs)))) 0) default
      let earliest := (pyMinByStr (fun a => a.publishedAt) arts).getD default
      { timestamp := earliest.publishedAt
        keyEvent := repArt.title
        summary := repArt.summary
        sourceArticles := arts.map (fun a => (a.url, a.source, a.title)) })
    Except.ok (pySortDesc (fun n1 n2 => lexLtChars n1.timestamp.data n2.timestamp.data) nodes)

/-! ## Helper lemmas -/

theorem foldlRec {α β : Type} (P : β → Prop) (f : β → α → β)
    (l : List α) (init : β) (hinit : P init)
    (hstep : ∀ acc x, x ∈ l → P acc → P (f acc x)) : P (l.foldl f init) := by
  induction l generalizing init with
  | nil => exact hinit
  | cons y ys ih =>
      exact ih (f init y) (hstep init y (by simp) hinit)
        (fun acc x hx hacc => hstep acc x (by simp [hx]) hacc)

theorem mem_safeSearch_validated (s : SourceModel) (a : Article)
    (ha : a ∈ safeSearch s) : validateArticle a = true := by
  unfold safeSearch at ha
  cases hres : s.searchResult with
  | error e => rw [hres] at ha; simp at ha
  | ok arts => rw [hres] at ha; exact (List.mem_filter.mp ha).2

theorem searchAll_values_safe (completed : List SourceModel)
    (nm : String) (arts : List Article)
    (hmem : (nm, arts) ∈ searchAll completed) :
    ∀ a ∈ arts, validateArticle a = true := by
  have key : ∀ kv ∈ searchAll completed, ∀ a ∈ kv.2, validateArticle a = true := by
    unfold searchAll
    refine foldlRec
      (fun (d : List (String × List Article)) => ∀ kv ∈ d, ∀ a ∈ kv.2, validateArticle a = true)
      _ _ _ (by simp) ?_
    intro acc s _ hacc kv hkv a ha
    unfold dictInsert at hkv
    by_cases hk : acc.any (fun e => e.1 == s.name)
    · rw [if_pos hk] at hkv
      rcases List.mem_map.mp hkv with ⟨e, he, heq⟩
      by_cases hee : e.1 == s.name
      · rw [if_pos hee] at heq
        subst heq
        exact mem_safeSearch_validated s a ha
      · rw [if_neg hee] at heq
        subst heq
        exact hacc e he a ha
    · rw [if_neg hk] at hkv
      rcases List.mem_append.mp hkv with h | h
      · exact hacc kv h a ha
      · rcases List.mem_singleton.mp h with rfl
        exact mem_safeSearch_validated s a ha
  exact key (nm, arts) hmem

/-- C10: every article appearing in the map returned by search_all has a
non-empty title, url and source: each connector result list is filtered
through validate_article, which drops failing articles silently. -/
theorem searchall_articles_validated (completed : List SourceModel)
    (nm : String) (arts : List Article) (a : Article)
    (hmem : (nm, arts) ∈ searchAll completed) (ha : a ∈ arts) :
    a.title ≠ "" ∧ a.url ≠ "" ∧ a.source ≠ "" := by
  have h := searchAll_values_safe completed nm arts hmem a ha
  unfold validateArticle at h
  simp only [Bool.and_eq_true, decide_eq_true_eq, ne_eq] at h ⊢
  exact ⟨h.1.1, h.1.2, h.2⟩

/-- A demonstration input for the search_all theorems: one healthy source
returning a valid and an invalid article, one raising source. -/
def demoGoodArticle : Article :=
  { title := "t1", url := "u1", source := "s1" }

/-- An article failing validation (empty title). -/
def demoBadArticle : Article :=
  { title := "", url := "u2", source := "s1" }

/-- The demonstration source list. -/
def demoCompleted : List SourceModel :=
  [⟨"alpha", .ok [demoGoodArticle, demoBadArticle]⟩, ⟨"beta", .error "boom"⟩]

theorem searchall_articles_validated_witness :
    demoGoodArticle.title ≠ "" ∧ demoGoodArticle.url ≠ "" ∧ demoGoodArticle.source ≠ "" :=
  searchall_articles_validated demoCompleted "alpha" [demoGoodArticle] demoGoodArticle
    (by decide) (by decide)

theorem searchAll_eq_map_of_nodup (completed : List SourceModel)
    (hnodup : (completed.map SourceModel.name).Nodup) :
    searchAll completed = completed.map (fun s => (s.name, safeSearch s)) := by
  suffices key : ∀ (cl : List SourceModel) (d : List (String × List Article)),
      (cl.map SourceModel.name).Nodup →
      (∀ s ∈ cl, ∀ e ∈ d, e.1 ≠ s.name) →
      cl.foldl (fun d s => dictInsert d s.name (safeSearch s)) d
        = d ++ cl.map (fun s => (s.name, safeSearch s)) by
    simpa using key completed [] hnodup (by simp)
  intro cl
  induction cl with
  | nil => intro d _ _; simp
  | cons s rest ih =>
      intro d hnd hdisj
      have hins : dictInsert d s.name (safeSearch s) = d ++ [(s.name, safeSearch s)] := by
        unfold dictInsert
        have : d.any (fun e => e.1 == s.name) = false := by
          rw [List.any_eq_false]
          intro e he
          simpa using hdisj s (by simp) e he
        rw [this]
        simp
      have hnd2 : (rest.map SourceModel.name).Nodup := (List.nodup_cons.mp hnd).2
      have hdisj2 : ∀ t ∈ rest, ∀ e ∈ d ++ [(s.name, safeSearch s)], e.1 ≠ t.name := by
        intro t ht e he
        rcases List.mem_append.mp he with h | h
        · exact hdisj t (by simp [ht]) e h
        · rcases List.mem_singleton.mp h with rfl
          intro hc
          have hc2 : s.name = t.name := hc
          exact (List.nodup_cons.mp hnd).1
            (by rw [hc2]; exact List.mem_map_of_mem SourceModel.name ht)
      calc (s :: rest).foldl (fun d s => dictInsert d s.name (safeSearch s)) d
          = rest.foldl (fun d s => dictInsert d s.name (safeSearch s))
              (d ++ [(s.name, safeSearch s)]) := by rw [List.foldl_cons, hins]
        _ = (d ++ [(s.name, safeSearch s)]) ++ rest.map (fun s => (s.name, safeSearch s)) :=
              ih _ hnd2 hdisj2
        _ = d ++ (s :: rest).map (fun s => (s.name, safeSearch s)) := by simp

theorem lookup_map_of_nodup (completed : List SourceModel) (s : SourceModel)
    (hnodup : (completed.map SourceModel.name).Nodup) (hs : s ∈ completed) :
    List.lookup s.name (completed.map (fun t => (t.name, safeSearch t)))
      = some (safeSearch s) := by
  induction completed with
  | nil => simp at hs
  | cons t rest ih =>
      rcases List.mem_cons.mp hs with rfl | hs2
      · simp [List.lookup]
      · have hne : (s.name == t.name) = false := by
          rw [beq_eq_false_iff_ne]
          intro hc
          exact (List.nodup_cons.mp hnodup).1
            (by rw [← hc]; exact List.mem_map_of_mem SourceModel.name hs2)
        simp only [List.map_cons, List.lookup, hne]
        exact ih (List.nodup_cons.mp hnodup).2 hs2

/-- C9 (amended): when the registered sources have pairwise distinct names,
search_all returns one entry per source, the entry for each source being its
safe_search output, and in particular the empty list for every source whose
search raised. -/
theorem searchall_isolates_failures (completed : List SourceModel)
    (hnodup : (completed.map SourceModel.name).Nodup) :
    (searchAll completed).length = completed.length
    ∧ (∀ s ∈ completed,
        List.lookup s.name (searchAll completed) = some (safeSearch s))
    ∧ (∀ s ∈ completed, ∀ e, s.searchResult = .error e →
        List.lookup s.name (searchAll completed) = some []) := by
  rw [searchAll_eq_map_of_nodup completed hnodup]
  refine ⟨by simp, ?_, ?_⟩
  · intro s hs
    exact lookup_map_of_nodup completed s hnodup hs
  · intro s hs e herr
    rw [lookup_map_of_nodup completed s hnodup hs]
    unfold safeSearch
    rw [herr]

/-- Demonstration sources with distinct names, one of them failing. -/
def demoDistinct : List SourceModel :=
  [⟨"alpha", .ok [demoGoodArticle]⟩, ⟨"beta", .error "timeout"⟩]

theorem searchall_isolates_failures_witness :
    (searchAll demoDistinct).length = demoDistinct.length
    ∧ (∀ s ∈ demoDistinct,
        List.lookup s.name (searchAll demoDistinct) = some (safeSearch s))
    ∧ (∀ s ∈ demoDistinct, ∀ e, s.searchResult = .error e →
        List.lookup s.name (searchAll demoDistinct) = some []) :=
  searchall_isolates_failures demoDistinct (by decide)

/-- C9 (counterexample): two registered sources sharing a name collapse to a
single entry of the returned map, so the map does not contain one entry per
registered source. -/
theorem searchall_duplicate_names_collapse :
    (searchAll [⟨"src", .error "boom"⟩, ⟨"src", .ok []⟩]).length = 1
    ∧ ([(⟨"src", .error "boom"⟩ : SourceModel), ⟨"src", .ok []⟩]).length = 2 := by
  decide

/-! ## C7: generate_timeline on empty input -/

/-- A concrete stand-in for datetime.fromisoformat accepting everything. -/
def demoParse : String → Option ℤ := fun _ => some 0

/-- A concrete stand-in for encode_docs. -/
def demoEmbed : List String → List (List ℚ) := fun l => l.map (fun _ => [0])

/-- A concrete stand-in for RobustScaler().fit_transform. -/
def demoScale : List ℚ → List ℚ := fun l => l

/-- A concrete stand-in for HDBSCAN fit_predict labelling everything noise. -/
def demoCluster : List (List ℚ) → List ℤ := fun l => l.map (fun _ => (-1 : ℤ))

/-- C7: generate_timeline applied to an empty article list does not return an
empty node list — it raises: `min(timestamps)` is evaluated on an empty
sequence (ValueError), before any clustering takes place. -/
theorem generate_timeline_empty_raises :
    generateTimeline demoParse demoEmbed demoScale demoCluster 2 (7 / 10) []
      = Except.error "ValueError: min() arg is an empty sequence" := by
  rfl

/-! ## C8: representative selection -/

theorem lexLtChars_irrefl (a : List Char) : lexLtChars a a = false := by
  induction a with
  | nil => rfl
  | cons c cs ih => simp [lexLtChars, ih]

theorem lexLtChars_asymm (a b : List Char) (h : lexLtChars a b = true) :
    lexLtChars b a = false := by
  induction a generalizing b with
  | nil =>
      cases b with
      | nil => simp [lexLtChars] at h
      | cons d ds => simp [lexLtChars]
  | cons c cs ih =>
      cases b with
      | nil => simp [lexLtChars] at h
      | cons d ds =>
          simp only [lexLtChars] at h ⊢
          by_cases hcd : c < d
          · rw [if_pos hcd] at h
            have hdc : ¬ d < c := fun hh => absurd hcd (not_lt_of_gt hh)
            rw [if_neg hdc, if_pos hcd]
          · rw [if_neg hcd] at h
            by_cases hdc : d < c
            · rw [if_pos hdc] at h; exact absurd h (by simp)
            · rw [if_neg hdc] at h ⊢
              rw [if_neg hcd]
              exact ih ds h

theorem lexLtChars_total (a b : List Char) (hab : lexLtChars a b = false)
    (hba : lexLtChars b a = false) : a = b := by
  induction a generalizing b with
  | nil =>
      cases b with
      | nil => rfl
      | cons d ds => simp [lexLtChars] at hab
  | cons c cs ih =>
      cases b with
      | nil => simp [lexLtChars] at hba
      | cons d ds =>
          simp only [lexLtChars] at hab hba
          by_cases hcd : c < d
          · rw [if_pos hcd] at hab; exact absurd hab (by simp)
          · by_cases hdc : d < c
            · rw [if_pos hdc] at hba; exact absurd hba (by simp)
            · rw [if_neg hcd, if_neg hdc] at hab
              rw [if_neg hdc, if_neg hcd] at hba
              have : c = d := le_antisymm (not_lt.mp hdc) (not_lt.mp hcd)
              rw [this, ih ds hab hba]

theorem lexLtChars_trans (a b c : List Char) (hab : lexLtChars a b = true)
    (hbc : lexLtChars b c = true) : lexLtChars a c = true := by
  induction a generalizing b c with
  | nil =>
      cases b with
      | nil => simp [lexLtChars] at hab
      | cons d ds =>
          cases c with
          | nil => simp [lexLtChars] at hbc
          | cons e es => simp [lexLtChars]
  | cons x xs ih =>
      cases b with
      | nil => simp [lexLtChars] at hab
      | cons d ds =>
          cases c with
          | nil => simp [lexLtChars] at hbc
          | cons e es =>
              simp only [lexLtChars] at hab hbc ⊢
              by_cases hxd : x < d
              · by_cases hde : d < e
                · rw [if_pos (lt_trans hxd hde)]
                · rw [if_neg hde] at hbc
                  by_cases hed : e < d
                  · rw [if_pos hed] at hbc; exact absurd hbc (by simp)
                  · have : d = e := le_antisymm (not_lt.mp hed) (not_lt.mp hde)
                    rw [if_pos (this ▸ hxd)]
              · rw [if_neg hxd] at hab
                by_cases hdx : d < x
                · rw [if_pos hdx] at hab; exact absurd hab (by simp)
                · rw [if_neg hdx] at hab
                  have hxdeq : x = d := le_antisymm (not_lt.mp hdx) (not_lt.mp hxd)
                  subst hxdeq
                  by_cases hde : x < e
                  · rw [if_pos hde]
                  · rw [if_neg hde] at hbc ⊢
                    by_cases hed : e < x
                    · rw [if_pos hed] at hbc; exact absurd hbc (by simp)
                    · rw [if_neg hed] at hbc ⊢
                      exact ih ds es hab hbc

theorem stringEqOfData (x y : String) (h : x.data = y.data) : x = y := by
  cases x; cases y; exact congrArg String.mk h

theorem pyKeyLt_irrefl (x : String) : pyKeyLt x x = false := by
  simp [pyKeyLt, lexLtChars_irrefl]

theorem pyKeyLt_total (x y : String) (hxy : pyKeyLt x y = false)
    (hyx : pyKeyLt y x = false) : x = y := by
  simp only [pyKeyLt, Bool.or_eq_false_iff, Bool.and_eq_false_iff,
    decide_eq_false_iff_not, not_lt] at hxy hyx
  have hlen : x.length = y.length := le_antisymm hyx.1 hxy.1
  rcases hxy.2 with h | h
  · exact absurd hlen (by simpa using h)
  · rcases hyx.2 with h2 | h2
    · exact absurd hlen.symm (by simpa using h2)
    · exact stringEqOfData x y (lexLtChars_total _ _ h h2)

theorem pyKeyLt_trans (x y z : String) (hxy : pyKeyLt x y = true)
    (hyz : pyKeyLt y z = true) : pyKeyLt x z = true := by
  simp only [pyKeyLt, Bool.or_eq_true, Bool.and_eq_true, decide_eq_true_eq] at hxy hyz ⊢
  rcases hxy with h1 | ⟨e1, l1⟩
  · rcases hyz with h2 | ⟨e2, l2⟩
    · exact Or.inl (lt_trans h1 h2)
    · exact Or.inl (e2 ▸ h1)
  · rcases hyz with h2 | ⟨e2, l2⟩
    · exact Or.inl (e1 ▸ h2)
    · exact Or.inr ⟨e1.trans e2, lexLtChars_trans _ _ _ l1 l2⟩

theorem chooseRepresentative_min (c₀ : String) (cs : List String) :
    (cs.foldl (fun best x => if pyKeyLt x best then x else best) c₀ ∈ c₀ :: cs)
    ∧ ∀ m ∈ c₀ :: cs,
        pyKeyLt m (cs.foldl (fun best x => if pyKeyLt x best then x else best) c₀) = false := by
  induction cs generalizing c₀ with
  | nil =>
      refine ⟨by simp, ?_⟩
      intro m hm
      rcases List.mem_singleton.mp hm with rfl
      exact pyKeyLt_irrefl m
  | cons x xs ih =>
      simp only [List.foldl_cons]
      rcases ih (if pyKeyLt x c₀ then x else c₀) with ⟨hmem, hmin⟩
      set r := xs.foldl (fun best x => if pyKeyLt x best then x else best)
        (if pyKeyLt x c₀ then x else c₀) with hr
      constructor
      · rcases List.mem_cons.mp hmem with h | h
        · by_cases hx : pyKeyLt x c₀
          · rw [if_pos hx] at h
            exact h ▸ (by simp)
          · rw [if_neg hx] at h
            exact h ▸ (by simp)
        · simp [List.mem_cons, h]
      · intro m hm
        have hbase : pyKeyLt (if pyKeyLt x c₀ then x else c₀) r = false :=
          hmin _ (by simp)
        rcases List.mem_cons.mp hm with rfl | hm2
        · by_cases hx : pyKeyLt x m = true
          · rw [if_pos hx] at hbase
            by_cases hmr : pyKeyLt m r = true
            · exact absurd (pyKeyLt_trans x m r hx hmr) (by simp [hbase])
            · exact Bool.eq_false_iff.mpr hmr
          · rwa [if_neg hx] at hbase
        · rcases List.mem_cons.mp hm2 with rfl | hm3
          · by_cases h1 : pyKeyLt m c₀ = true
            · rwa [if_pos h1] at hbase
            · rw [if_neg h1] at hbase
              by_cases hmr : pyKeyLt m r = true
              · exfalso
                by_cases hcm : pyKeyLt c₀ m = true
                · exact absurd (pyKeyLt_trans c₀ m r hcm hmr) (by simp [hbase])
                · have he : c₀ = m := pyKeyLt_total c₀ m (Bool.eq_false_iff.mpr hcm)
                    (Bool.eq_false_iff.mpr h1)
                  rw [he] at hbase
                  exact absurd hmr (by simp [hbase])
              · exact Bool.eq_false_iff.mpr hmr
          · exact hmin m (by simp [hm3])

/-- C8: the representative of a non-empty cluster is one of its members, has
minimal string length, and among the members of that minimal length it is
lexicographically smallest. -/
theorem representative_member_minimal (c : List String) (hc : c ≠ []) :
    chooseRepresentative c ∈ c
    ∧ (∀ m ∈ c, (chooseRepresentative c).length ≤ m.length)
    ∧ (∀ m ∈ c, m.length = (chooseRepresentative c).length →
        chooseRepresentative c = m
          ∨ lexLtChars (chooseRepresentative c).data m.data = true) := by
  cases c with
  | nil => exact absurd rfl hc
  | cons c₀ cs =>
    rcases chooseRepresentative_min c₀ cs with ⟨hmem, hmin⟩
    have hrep : chooseRepresentative (c₀ :: cs)
        = cs.foldl (fun best x => if pyKeyLt x best then x else best) c₀ := rfl
    rw [hrep]
    refine ⟨hmem, ?_, ?_⟩
    · intro m hm
      have := hmin m hm
      simp only [pyKeyLt, Bool.or_eq_false_iff, Bool.and_eq_false_iff,
        decide_eq_false_iff_not, not_lt] at this
      exact this.1
    · intro m hm hlen
      set r := cs.foldl (fun best x => if pyKeyLt x best then x else best) c₀ with hr
      have := hmin m hm
      simp only [pyKeyLt, Bool.or_eq_false_iff, Bool.and_eq_false_iff,
        decide_eq_false_iff_not, not_lt] at this
      rcases this.2 with h | h
      · exact absurd hlen (by simpa using h)
      · by_cases hlex : lexLtChars r.data m.data = true
        · exact Or.inr hlex
        · left
          exact (stringEqOfData m r (lexLtChars_total _ _ h (Bool.eq_false_iff.mpr hlex))).symm

theorem representative_member_minimal_witness :
    chooseRepresentative ["bb", "a", "ab"] ∈ ["bb", "a", "ab"]
    ∧ (∀ m ∈ ["bb", "a", "ab"], (chooseRepresentative ["bb", "a", "ab"]).length ≤ m.length)
    ∧ (∀ m ∈ ["bb", "a", "ab"], m.length = (chooseRepresentative ["bb", "a", "ab"]).length →
        chooseRepresentative ["bb", "a", "ab"] = m
          ∨ lexLtChars (chooseRepresentative ["bb", "a", "ab"]).data m.data = true) :=
  representative_member_minimal ["bb", "a", "ab"] (by decide)

/-! ## C2 and C3: aggregate_results -/

theorem insDescBy_perm (lt : α → α → Bool) (x : α) (l : List α) :
    List.Perm (insDescBy lt x l) (x :: l) := by
  induction l with
  | nil => simp [insDescBy]
  | cons y ys ih =>
      unfold insDescBy
      by_cases h : lt y x
      · rw [if_pos h]
      · rw [if_neg h]
        exact ((ih.cons y).trans (List.Perm.swap x y ys))

theorem pySortDesc_perm (lt : α → α → Bool) (l : List α) :
    List.Perm (pySortDesc lt l) l := by
  suffices key : ∀ (l acc : List α),
      List.Perm (l.foldl (fun acc x => insDescBy lt x acc) acc) (acc ++ l) by
    simpa using key l []
  intro l
  induction l with
  | nil => intro acc; simp
  | cons x xs ih =>
      intro acc
      rw [List.foldl_cons]
      refine (ih (insDescBy lt x acc)).trans ?_
      refine List.Perm.trans (List.Perm.append_right xs (insDescBy_perm lt x acc)) ?_
      exact List.perm_middle.symm

theorem pySortDesc_length (lt : α → α → Bool) (l : List α) :
    (pySortDesc lt l).length = l.length :=
  (pySortDesc_perm lt l).length_eq

theorem find?_cons_pos {α : Type} {p : α → Bool} (a : α) (l : List α) (h : p a = true) :
    (a :: l).find? p = some a := by
  simp [List.find?_cons, h]

theorem find?_cons_neg {α : Type} {p : α → Bool} (a : α) (l : List α) (h : p a = false) :
    (a :: l).find? p = l.find? p := by
  simp [List.find?_cons, h]

theorem dedupByUrlAux_filter (u : String) (l : List Article) (seen : List String) :
    (dedupByUrlAux l seen).filter (fun a => a.url == u)
      = if seen.contains u then [] else ((l.find? (fun a => a.url == u)).toList) := by
  induction l generalizing seen with
  | nil => simp [dedupByUrlAux]
  | cons a rest ih =>
      unfold dedupByUrlAux
      by_cases hseen : seen.contains a.url = true
      · rw [if_pos hseen, ih seen]
        by_cases hau : (a.url == u) = true
        · have hueq : a.url = u := beq_iff_eq.mp hau
          have hu : seen.contains u = true := by rw [← hueq]; exact hseen
          rw [if_pos hu, if_pos hu]
        · rw [find?_cons_neg a rest (Bool.eq_false_iff.mpr hau)]
      · rw [if_neg hseen, List.filter_cons]
        by_cases hau : (a.url == u) = true
        · rw [if_pos hau, ih (a.url :: seen)]
          have hueq : a.url = u := beq_iff_eq.mp hau
          have hu : seen.contains u = false := by
            rw [← hueq]
            exact Bool.eq_false_iff.mpr hseen
          have hcons : (a.url :: seen).contains u = true := by
            rw [List.contains_cons]
            have : (u == a.url) = true := beq_iff_eq.mpr hueq.symm
            rw [this]
            rfl
          rw [if_pos hcons, if_neg (by rw [hu]; simp), find?_cons_pos a rest hau]
          rfl
        · rw [if_neg hau, ih (a.url :: seen)]
          have hcons : (a.url :: seen).contains u = seen.contains u := by
            rw [List.contains_cons]
            have : (u == a.url) = false := by
              rw [beq_eq_false_iff_ne]
              intro hc
              exact hau (beq_iff_eq.mpr hc.symm)
            rw [this, Bool.false_or]
          rw [hcons, find?_cons_neg a rest (Bool.eq_false_iff.mpr hau)]

theorem dedupByUrl_filter (u : String) (l : List Article) :
    (dedupByUrl l).filter (fun a => a.url == u)
      = ((l.find? (fun a => a.url == u)).toList) := by
  unfold dedupByUrl
  rw [dedupByUrlAux_filter]
  simp

/-- toDict ignores the filter flag. -/
theorem toDict_setFilterFlag (b : Bool) (a : Article) :
    toDict (setFilterFlag b a) = toDict a := rfl

theorem aggregateRanked_perm (simFn : String → String → ℚ) (thr : ℚ) (query : String)
    (results : List (String × List Article)) :
    List.Perm ((aggregateRanked simFn thr query results).map toDict)
      ((dedupByUrl (results.flatMap Prod.snd)).map toDict) := by
  unfold aggregateRanked
  rw [List.map_append, List.map_map, List.map_map]
  have h1 : toDict ∘ setFilterFlag false = toDict := funext (toDict_setFilterFlag false)
  have h2 : toDict ∘ setFilterFlag true = toDict := funext (toDict_setFilterFlag true)
  rw [h1, h2, ← List.map_append]
  refine List.Perm.trans (List.Perm.map toDict ?_) (List.Perm.map toDict
    (pySortDesc_perm (fun a b => pubLt a.publishedAt b.publishedAt)
      (dedupByUrl (results.flatMap Prod.snd))))
  exact List.filter_append_perm _ _

/-- C2: aggregate_results keeps at most one article per distinct url, and the
article kept for a url is exactly the first one encountered during the merge
over the per-source lists (its dictionary, since the filter flag is not part
of to_dict output). -/
theorem aggregate_dedups_by_url (simFn : String → String → ℚ) (thr : ℚ) (query u : String)
    (results : List (String × List Article)) :
    ((aggregateResults simFn thr query results).filter (fun d => d.url == u)).length ≤ 1
    ∧ (aggregateResults simFn thr query results).filter (fun d => d.url == u)
        = (((results.flatMap Prod.snd).find? (fun a => a.url == u)).map toDict).toList := by
  have hperm : List.Perm
      ((aggregateResults simFn thr query results).filter (fun d => d.url == u))
      (((dedupByUrl (results.flatMap Prod.snd)).map toDict).filter (fun d => d.url == u)) :=
    (aggregateRanked_perm simFn thr query results).filter _
  have hcompute : ((dedupByUrl (results.flatMap Prod.snd)).map toDict).filter
        (fun d => d.url == u)
      = (((results.flatMap Prod.snd).find? (fun a => a.url == u)).map toDict).toList := by
    rw [List.filter_map toDict (dedupByUrl (results.flatMap Prod.snd))]
    have : ((fun d => d.url == u) ∘ toDict) = (fun (a : Article) => a.url == u) := rfl
    rw [this, dedupByUrl_filter]
    cases (results.flatMap Prod.snd).find? (fun a => a.url == u) <;> simp
  rw [hcompute] at hperm
  have heq : (aggregateResults simFn thr query results).filter (fun d => d.url == u)
      = (((results.flatMap Prod.snd).find? (fun a => a.url == u)).map toDict).toList := by
    cases hfind : (results.flatMap Prod.snd).find? (fun a => a.url == u) with
    | none => rw [hfind] at hperm; exact List.perm_nil.mp (by simpa using hperm)
    | some a => rw [hfind] at hperm; exact List.perm_singleton.mp (by simpa using hperm)
  refine ⟨?_, heq⟩
  rw [heq]
  cases (results.flatMap Prod.snd).find? (fun a => a.url == u) <;> simp

/-- C3: relevance filtering demotes, never deletes: the output of the
ranking stage has exactly the length of the deduplicated input; every output
article is flagged filter=false exactly when its title similarity reaches
the threshold; all filter=false articles precede all filter=true ones; and
each group is the sorted deduplicated list restricted to its flag, in
unchanged relative order. -/
theorem aggregate_demotes_not_deletes (simFn : String → String → ℚ) (thr : ℚ)
    (query : String) (results : List (String × List Article)) :
    (aggregateRanked simFn thr query results).length
        = (dedupByUrl (results.flatMap Prod.snd)).length
    ∧ (∀ a ∈ aggregateRanked simFn thr query results,
        (a.filter = false ↔ thr ≤ simFn query a.title))
    ∧ aggregateRanked simFn thr query results
        = (aggregateRanked simFn thr query results).filter (fun a => ! a.filter)
          ++ (aggregateRanked simFn thr query results).filter (fun a => a.filter)
    ∧ (aggregateRanked simFn thr query results).filter (fun a => ! a.filter)
        = ((pySortDesc (fun a b => pubLt a.publishedAt b.publishedAt)
            (dedupByUrl (results.flatMap Prod.snd))).filter
              (fun a => decide (thr ≤ simFn query a.title))).map (setFilterFlag false)
    ∧ (aggregateRanked simFn thr query results).filter (fun a => a.filter)
        = ((pySortDesc (fun a b => pubLt a.publishedAt b.publishedAt)
            (dedupByUrl (results.flatMap Prod.snd))).filter
              (fun a => ! decide (thr ≤ simFn query a.title))).map (setFilterFlag true) := by
  set sorted := pySortDesc (fun a b => pubLt a.publishedAt b.publishedAt)
    (dedupByUrl (results.flatMap Prod.snd)) with hsorted
  set keep := (sorted.filter (fun a => decide (thr ≤ simFn query a.title))).map
    (setFilterFlag false) with hkeep
  set rest := (sorted.filter (fun a => ! decide (thr ≤ simFn query a.title))).map
    (setFilterFlag true) with hrest
  have hagg : aggregateRanked simFn thr query results = keep ++ rest := rfl
  have hkeepfalse : ∀ a ∈ keep, a.filter = false := by
    intro a ha
    rcases List.mem_map.mp ha with ⟨b, _, rfl⟩
    rfl
  have hresttrue : ∀ a ∈ rest, a.filter = true := by
    intro a ha
    rcases List.mem_map.mp ha with ⟨b, _, rfl⟩
    rfl
  have hfilterkeep : (keep ++ rest).filter (fun a => ! a.filter) = keep := by
    rw [List.filter_append]
    have h1 : keep.filter (fun a => ! a.filter) = keep :=
      List.filter_eq_self.mpr (fun a ha => by rw [hkeepfalse a ha]; rfl)
    have h2 : rest.filter (fun a => ! a.filter) = [] :=
      List.filter_eq_nil_iff.mpr (fun a ha => by rw [hresttrue a ha]; simp)
    rw [h1, h2, List.append_nil]
  have hfilterrest : (keep ++ rest).filter (fun a => a.filter) = rest := by
    rw [List.filter_append]
    have h1 : keep.filter (fun a => a.filter) = [] :=
      List.filter_eq_nil_iff.mpr (fun a ha => by rw [hkeepfalse a ha]; simp)
    have h2 : rest.filter (fun a => a.filter) = rest :=
      List.filter_eq_self.mpr (fun a ha => by rw [hresttrue a ha])
    rw [h1, h2, List.nil_append]
  refine ⟨?_, ?_, ?_, ?_, ?_⟩
  · rw [hagg, List.length_append, hkeep, hrest, List.length_map, List.length_map]
    have := (List.filter_append_perm (fun a => decide (thr ≤ simFn query a.title)) sorted).length_eq
    rw [List.length_append] at this
    rw [this, hsorted, pySortDesc_length]
  · intro a ha
    rw [hagg] at ha
    rcases List.mem_append.mp ha with h | h
    · rcases List.mem_map.mp h with ⟨b, hb, rfl⟩
      have hdec : decide (thr ≤ simFn query b.title) = true := (List.mem_filter.mp hb).2
      exact iff_of_true rfl (of_decide_eq_true hdec)
    · rcases List.mem_map.mp h with ⟨b, hb, rfl⟩
      have hdec : (! decide (thr ≤ simFn query b.title)) = true := (List.mem_filter.mp hb).2
      refine iff_of_false (by simp [setFilterFlag]) ?_
      exact of_decide_eq_false (by simpa using hdec)
  · rw [hagg, hfilterkeep, hfilterrest]
  · rw [hagg, hfilterkeep]
  · rw [hagg, hfilterrest]

/-! ## C4: similarity bounds and symmetry -/

theorem commonLen_le_left (a b : List Char) : commonLen a b ≤ a.length := by
  induction a generalizing b with
  | nil => cases b <;> simp [commonLen]
  | cons x xs ih =>
      cases b with
      | nil => simp [commonLen]
      | cons y ys =>
          unfold commonLen
          by_cases h : x = y
          · rw [if_pos h]
            simpa using ih ys
          · rw [if_neg h]
            simp

theorem commonLen_le_right (a b : List Char) : commonLen a b ≤ b.length := by
  induction a generalizing b with
  | nil => cases b <;> simp [commonLen]
  | cons x xs ih =>
      cases b with
      | nil => simp [commonLen]
      | cons y ys =>
          unfold commonLen
          by_cases h : x = y
          · rw [if_pos h]
            simpa using ih ys
          · rw [if_neg h]
            simp

/-- The accumulated best block always stays inside both lists (a candidate
only replaces the best when its length is positive, which forces the start
indices into range). -/
theorem longestBlock_bounds (a b : List Char) :
    (longestBlock a b).1 + (longestBlock a b).2.2 ≤ a.length
    ∧ (longestBlock a b).2.1 + (longestBlock a b).2.2 ≤ b.length := by
  unfold longestBlock
  refine foldlRec
    (fun (t : ℕ × ℕ × ℕ) => t.1 + t.2.2 ≤ a.length ∧ t.2.1 + t.2.2 ≤ b.length)
    _ _ _ (by simp) ?_
  intro acc ij _ hacc
  by_cases h : acc.2.2 < commonLen (a.drop ij.1) (b.drop ij.2)
  · rw [if_pos h]
    have hk1 : commonLen (a.drop ij.1) (b.drop ij.2) ≤ a.length - ij.1 := by
      have := commonLen_le_left (a.drop ij.1) (b.drop ij.2)
      rwa [List.length_drop] at this
    have hk2 : commonLen (a.drop ij.1) (b.drop ij.2) ≤ b.length - ij.2 := by
      have := commonLen_le_right (a.drop ij.1) (b.drop ij.2)
      rwa [List.length_drop] at this
    have hkpos : 1 ≤ commonLen (a.drop ij.1) (b.drop ij.2) := Nat.one_le_iff_ne_zero.mpr
      (fun hz => by rw [hz] at h; exact absurd h (by simp))
    constructor
    · have hia : ij.1 ≤ a.length := by
        by_contra hgt
        push_neg at hgt
        rw [Nat.sub_eq_zero_of_le (le_of_lt hgt)] at hk1
        exact absurd (le_trans hkpos hk1) (by simp)
      calc ij.1 + commonLen (a.drop ij.1) (b.drop ij.2)
          ≤ ij.1 + (a.length - ij.1) := by exact Nat.add_le_add_left hk1 ij.1
        _ = a.length := Nat.add_sub_cancel' hia
    · have hib : ij.2 ≤ b.length := by
        by_contra hgt
        push_neg at hgt
        rw [Nat.sub_eq_zero_of_le (le_of_lt hgt)] at hk2
        exact absurd (le_trans hkpos hk2) (by simp)
      calc ij.2 + commonLen (a.drop ij.1) (b.drop ij.2)
          ≤ ij.2 + (b.length - ij.2) := by exact Nat.add_le_add_left hk2 ij.2
        _ = b.length := Nat.add_sub_cancel' hib
  · rw [if_neg h]
    exact hacc

theorem matchTotal_le (fuel : ℕ) (a b : List Char) :
    matchTotal fuel a b ≤ a.length ∧ matchTotal fuel a b ≤ b.length := by
  induction fuel generalizing a b with
  | zero => simp [matchTotal]
  | succ n ih =>
      unfold matchTotal
      by_cases hz : (longestBlock a b).2.2 = 0
      · rw [if_pos hz]
        simp
      · rw [if_neg hz]
        rcases longestBlock_bounds a b with ⟨hba, hbb⟩
        set t := longestBlock a b with ht
        rcases ih (a.take t.1) (b.take t.2.1) with ⟨hL1, hL2⟩
        rcases ih (a.drop (t.1 + t.2.2)) (b.drop (t.2.1 + t.2.2)) with ⟨hR1, hR2⟩
        constructor
        · have h1 : matchTotal n (a.take t.1) (b.take t.2.1) ≤ t.1 :=
            le_trans hL1 (by rw [List.length_take]; exact min_le_left t.1 a.length)
          have h2 : matchTotal n (a.drop (t.1 + t.2.2)) (b.drop (t.2.1 + t.2.2))
              ≤ a.length - (t.1 + t.2.2) := by
            rw [← List.length_drop]
            exact hR1
          calc matchTotal n (a.take t.1) (b.take t.2.1) + t.2.2
                + matchTotal n (a.drop (t.1 + t.2.2)) (b.drop (t.2.1 + t.2.2))
              ≤ t.1 + t.2.2 + (a.length - (t.1 + t.2.2)) := by
                exact Nat.add_le_add (Nat.add_le_add_right h1 t.2.2) h2
            _ = a.length := Nat.add_sub_cancel' hba
        · have h1 : matchTotal n (a.take t.1) (b.take t.2.1) ≤ t.2.1 :=
            le_trans hL2 (by rw [List.length_take]; exact min_le_left t.2.1 b.length)
          have h2 : matchTotal n (a.drop (t.1 + t.2.2)) (b.drop (t.2.1 + t.2.2))
              ≤ b.length - (t.2.1 + t.2.2) := by
            rw [← List.length_drop]
            exact hR2
          calc matchTotal n (a.take t.1) (b.take t.2.1) + t.2.2
                + matchTotal n (a.drop (t.1 + t.2.2)) (b.drop (t.2.1 + t.2.2))
              ≤ t.2.1 + t.2.2 + (b.length - (t.2.1 + t.2.2)) := by
                exact Nat.add_le_add (Nat.add_le_add_right h1 t.2.2) h2
            _ = b.length := Nat.add_sub_cancel' hbb

theorem seqRatioQ_nonneg (x y : String) : 0 ≤ seqRatioQ x y := by
  unfold seqRatioQ
  by_cases h : x.data.length + y.data.length = 0
  · rw [if_pos h]
    norm_num
  · rw [if_neg h]
    apply div_nonneg
    · positivity
    · positivity

theorem seqRatioQ_le_one (x y : String) : seqRatioQ x y ≤ 1 := by
  unfold seqRatioQ
  by_cases h : x.data.length + y.data.length = 0
  · rw [if_pos h]
  · rw [if_neg h]
    have hpos : (0 : ℚ) < (x.data.length : ℚ) + (y.data.length : ℚ) := by
      exact_mod_cast Nat.pos_of_ne_zero h
    rw [div_le_one hpos]
    rcases matchTotal_le (x.data.length + y.data.length) x.data y.data with ⟨h1, h2⟩
    have : (2 * matchTotal (x.data.length + y.data.length) x.data y.data : ℚ)
        = (matchTotal (x.data.length + y.data.length) x.data y.data : ℚ)
          + (matchTotal (x.data.length + y.data.length) x.data y.data : ℚ) := by ring
    rw [this]
    exact add_le_add (by exact_mod_cast h1) (by exact_mod_cast h2)

theorem containScore_nonneg (la lb : ℕ) : 0 ≤ containScore la lb := by
  unfold containScore
  by_cases h : (1 : ℚ) / 2 < (min la lb : ℚ) / (max la lb : ℚ)
  · rw [if_pos h]
    refine le_min (by norm_num) ?_
    have : (0 : ℚ) ≤ (min la lb : ℚ) / (max la lb : ℚ) := by positivity
    linarith
  · rw [if_neg h]
    positivity

theorem containScore_le_one (la lb : ℕ) : containScore la lb ≤ 1 := by
  unfold containScore
  by_cases h : (1 : ℚ) / 2 < (min la lb : ℚ) / (max la lb : ℚ)
  · rw [if_pos h]
    exact le_trans (min_le_left _ _) (by norm_num)
  · rw [if_neg h]
    by_cases hz : (max la lb : ℚ) = 0
    · rw [hz]
      norm_num
    · rw [div_le_one (lt_of_le_of_ne (by positivity) (Ne.symm hz))]
      exact_mod_cast Nat.cast_le.mpr (min_le_max)

theorem calculateSimilarity_nonneg (a b : String) : 0 ≤ calculateSimilarity a b := by
  unfold calculateSimilarity
  by_cases h1 : a = b
  · rw [if_pos h1]; norm_num
  · rw [if_neg h1]
    by_cases h2 : (pySubstr a b || pySubstr b a) = true
    · rw [if_pos h2]; exact containScore_nonneg _ _
    · rw [if_neg h2]; exact seqRatioQ_nonneg a b

theorem calculateSimilarity_le_one (a b : String) : calculateSimilarity a b ≤ 1 := by
  unfold calculateSimilarity
  by_cases h1 : a = b
  · rw [if_pos h1]
  · rw [if_neg h1]
    by_cases h2 : (pySubstr a b || pySubstr b a) = true
    · rw [if_pos h2]; exact containScore_le_one _ _
    · rw [if_neg h2]; exact seqRatioQ_le_one a b

theorem calculateSimilarity_self (a : String) : calculateSimilarity a a = 1 := by
  unfold calculateSimilarity
  rw [if_pos rfl]

theorem heurCell_nonneg (ks : List String) (i j : ℕ) : 0 ≤ heurCell ks i j := by
  unfold heurCell
  by_cases h1 : ks.getD i "" = ks.getD j ""
  · rw [if_pos h1]; norm_num
  · rw [if_neg h1]
    by_cases h2 : (pySubstr (ks.getD i "") (ks.getD j "") || pySubstr (ks.getD j "") (ks.getD i "")) = true
    · rw [if_pos h2]; exact containScore_nonneg _ _
    · rw [if_neg h2]

theorem heurCell_le_one (ks : List String) (i j : ℕ) : heurCell ks i j ≤ 1 := by
  unfold heurCell
  by_cases h1 : ks.getD i "" = ks.getD j ""
  · rw [if_pos h1]
  · rw [if_neg h1]
    by_cases h2 : (pySubstr (ks.getD i "") (ks.getD j "") || pySubstr (ks.getD j "") (ks.getD i "")) = true
    · rw [if_pos h2]; exact containScore_le_one _ _
    · rw [if_neg h2]; norm_num

theorem simMatrixBatch_diag (ks : List String) (i : ℕ) : simMatrixBatch ks i i = 1 := by
  unfold simMatrixBatch
  simp

theorem simMatrixBatch_symm (ks : List String) (i j : ℕ) :
    simMatrixBatch ks i j = simMatrixBatch ks j i := by
  unfold simMatrixBatch
  rw [min_comm, max_comm]

theorem simMatrixBatch_nonneg (ks : List String) (i j : ℕ) : 0 ≤ simMatrixBatch ks i j := by
  unfold simMatrixBatch
  by_cases h : min i j = max i j
  · rw [if_pos h]; norm_num
  · rw [if_neg h]
    by_cases hc : heurCell ks (min i j) (max i j) = 0
    · rw [if_pos hc]; exact seqRatioQ_nonneg _ _
    · rw [if_neg hc]; exact heurCell_nonneg _ _ _

theorem simMatrixBatch_le_one (ks : List String) (i j : ℕ) : simMatrixBatch ks i j ≤ 1 := by
  unfold simMatrixBatch
  by_cases h : min i j = max i j
  · rw [if_pos h]
  · rw [if_neg h]
    by_cases hc : heurCell ks (min i j) (max i j) = 0
    · rw [if_pos hc]; exact seqRatioQ_le_one _ _
    · rw [if_neg hc]; exact heurCell_le_one _ _ _

theorem simMatrixBatchSem_diag (sem : ℕ → ℕ → ℚ) (ks : List String) (i : ℕ) :
    simMatrixBatchSem sem ks i i = 1 := by
  unfold simMatrixBatchSem
  simp

theorem simMatrixBatchSem_symm (sem : ℕ → ℕ → ℚ) (ks : List String) (i j : ℕ) :
    simMatrixBatchSem sem ks i j = simMatrixBatchSem sem ks j i := by
  unfold simMatrixBatchSem
  rw [min_comm, max_comm]

theorem simMatrixBatchSem_nonneg (sem : ℕ → ℕ → ℚ) (ks : List String) (i j : ℕ) :
    0 ≤ simMatrixBatchSem sem ks i j := by
  unfold simMatrixBatchSem
  by_cases h : min i j = max i j
  · rw [if_pos h]; norm_num
  · rw [if_neg h]
    dsimp only
    set c := heurCell ks (min i j) (max i j) with hc
    set s := min 1 (max 0 (sem (min i j) (max i j))) with hs
    have hsnn : 0 ≤ s := le_min (by norm_num) (le_max_left 0 _)
    by_cases h2 : c = 0 ∨ c < s
    · rw [if_pos h2]
      by_cases h3 : s = 0
      · rw [if_pos h3]; exact seqRatioQ_nonneg _ _
      · rw [if_neg h3]; exact hsnn
    · rw [if_neg h2]
      by_cases h3 : c = 0
      · rw [if_pos h3]; exact seqRatioQ_nonneg _ _
      · rw [if_neg h3]; exact heurCell_nonneg _ _ _

theorem simMatrixBatchSem_le_one (sem : ℕ → ℕ → ℚ) (ks : List String) (i j : ℕ) :
    simMatrixBatchSem sem ks i j ≤ 1 := by
  unfold simMatrixBatchSem
  by_cases h : min i j = max i j
  · rw [if_pos h]
  · rw [if_neg h]
    dsimp only
    set c := heurCell ks (min i j) (max i j) with hc
    set s := min 1 (max 0 (sem (min i j) (max i j))) with hs
    have hsle : s ≤ 1 := min_le_left 1 _
    by_cases h2 : c = 0 ∨ c < s
    · rw [if_pos h2]
      by_cases h3 : s = 0
      · rw [if_pos h3]; exact seqRatioQ_le_one _ _
      · rw [if_neg h3]; exact hsle
    · rw [if_neg h2]
      by_cases h3 : c = 0
      · rw [if_pos h3]; exact seqRatioQ_le_one _ _
      · rw [if_neg h3]; exact heurCell_le_one _ _ _

/-- C4 (amended): all BERT-encoder similarity scores lie in [0,1]; a text has
similarity 1 with itself; and the batch matrix (with or without the semantic
model, for any model output) has diagonal 1 and is symmetric.  The pairwise
`_calculate_similarity` itself, however, is not symmetric (see the
counterexample). -/
theorem similarity_bounds (a b : String) (ks : List String) (sem : ℕ → ℕ → ℚ) (i j : ℕ) :
    (0 ≤ calculateSimilarity a b ∧ calculateSimilarity a b ≤ 1)
    ∧ calculateSimilarity a a = 1
    ∧ simMatrixBatch ks i i = 1
    ∧ simMatrixBatch ks i j = simMatrixBatch ks j i
    ∧ (0 ≤ simMatrixBatch ks i j ∧ simMatrixBatch ks i j ≤ 1)
    ∧ simMatrixBatchSem sem ks i i = 1
    ∧ simMatrixBatchSem sem ks i j = simMatrixBatchSem sem ks j i
    ∧ (0 ≤ simMatrixBatchSem sem ks i j ∧ simMatrixBatchSem sem ks i j ≤ 1) :=
  ⟨⟨calculateSimilarity_nonneg a b, calculateSimilarity_le_one a b⟩,
    calculateSimilarity_self a,
    simMatrixBatch_diag ks i,
    simMatrixBatch_symm ks i j,
    ⟨simMatrixBatch_nonneg ks i j, simMatrixBatch_le_one ks i j⟩,
    simMatrixBatchSem_diag sem ks i,
    simMatrixBatchSem_symm sem ks i j,
    ⟨simMatrixBatchSem_nonneg sem ks i j, simMatrixBatchSem_le_one sem ks i j⟩⟩

unseal Rat.mul Rat.inv Rat.add Rat.sub in
/-- C4 (counterexample): similarity is not symmetric.  In the character-level
fallback, `_calculate_similarity("ab", "bacb")` is 2/3 but
`_calculate_similarity("bacb", "ab")` is 1/3: difflib's ratio depends on the
argument order. -/
theorem similarity_not_symmetric :
    calculateSimilarity "ab" "bacb" = 2 / 3
    ∧ calculateSimilarity "bacb" "ab" = 1 / 3
    ∧ calculateSimilarity "ab" "bacb" ≠ calculateSimilarity "bacb" "ab" := by
  decide

/-! ## C6: batch matrix vs pairwise similarity -/

theorem matchTotal_nil_left (fuel : ℕ) (b : List Char) : matchTotal fuel [] b = 0 := by
  cases fuel with
  | zero => rfl
  | succ n =>
      unfold matchTotal
      have hp : pairList ([] : List Char).length b.length = [] := by
        simp [pairList]
      have hlb : longestBlock [] b = (0, 0, 0) := by
        unfold longestBlock
        rw [hp]
        rfl
      rw [hlb]
      rfl

theorem pairList_zero_right (la : ℕ) : pairList la 0 = [] := by
  unfold pairList
  have : ∀ l : List ℕ, (l.flatMap fun i => (List.range 0).map fun j => (i, j)) = [] := by
    intro l
    induction l with
    | nil => rfl
    | cons x xs ih => simp [ih]
  exact this (List.range la)

theorem matchTotal_nil_right (fuel : ℕ) (a : List Char) : matchTotal fuel a [] = 0 := by
  cases fuel with
  | zero => rfl
  | succ n =>
      unfold matchTotal
      have hlb : longestBlock a [] = (0, 0, 0) := by
        unfold longestBlock
        rw [show ([] : List Char).length = 0 from rfl, pairList_zero_right]
        rfl
      rw [hlb]
      rfl

theorem seqRatioQ_zero_of_empty (a b : String) (h : a.data = [] ∨ b.data = [])
    (hne : a ≠ b) : seqRatioQ a b = 0 := by
  unfold seqRatioQ
  have hsum : a.data.length + b.data.length ≠ 0 := by
    intro hz
    have ha : a.data = [] := List.length_eq_zero.mp (Nat.eq_zero_of_add_eq_zero_right hz)
    have hb : b.data = [] := List.length_eq_zero.mp (Nat.eq_zero_of_add_eq_zero_left hz)
    exact hne (stringEqOfData a b (ha.trans hb.symm))
  rw [if_neg hsum]
  rcases h with h | h
  · rw [h, matchTotal_nil_left]
    norm_num
  · rw [h, matchTotal_nil_right]
    norm_num

/-- C6 (amended): in the degraded configuration (no semantic model) the batch
similarity matrix is semantically identical to the pairwise similarity: the
(i,j) entry with i ≤ j equals `_calculate_similarity` of the i-th and j-th
keywords (for j < i the cell holds the value of the ordered pair, which can
differ from the pairwise call in that order because difflib is asymmetric;
and with the semantic model the two functions genuinely differ, see the
counterexample). -/
theorem batch_matches_pairwise_fallback (ks : List String) (i j : ℕ)
    (hij : i ≤ j) (hj : j < ks.length) :
    simMatrixBatch ks i j = calculateSimilarity (ks.getD i "") (ks.getD j "") := by
  unfold simMatrixBatch
  dsimp only
  rw [min_eq_left hij, max_eq_right hij]
  by_cases heq : i = j
  · rw [if_pos heq]
    subst heq
    rw [calculateSimilarity_self]
  · rw [if_neg heq]
    unfold heurCell calculateSimilarity
    set a := ks.getD i "" with ha
    set b := ks.getD j "" with hb
    by_cases hab : a = b
    · rw [if_pos hab, if_pos hab]
      norm_num
    · rw [if_neg hab, if_neg hab]
      by_cases hsub : (pySubstr a b || pySubstr b a) = true
      · rw [if_pos hsub, if_pos hsub]
        by_cases hzero : containScore a.length b.length = 0
        · rw [if_pos hzero, hzero]
          have hempty : a.data = [] ∨ b.data = [] := by
            unfold containScore at hzero
            by_cases hr : (1 : ℚ) / 2 < (min a.length b.length : ℚ) / (max a.length b.length : ℚ)
            · rw [if_pos hr] at hzero
              exfalso
              have h2 : (0 : ℚ) < 7 / 10
                  + ((min a.length b.length : ℚ) / (max a.length b.length : ℚ)) / 5 := by
                have hge : (0 : ℚ) ≤ (min a.length b.length : ℚ)
                    / (max a.length b.length : ℚ) := by positivity
                linarith
              have hlt := lt_min (show (0 : ℚ) < 9 / 10 by norm_num) h2
              rw [hzero] at hlt
              exact absurd hlt (by norm_num)
            · rw [if_neg hr] at hzero
              rcases div_eq_zero_iff.mp hzero with hnum | hden
              · have hmin : min a.length b.length = 0 := by exact_mod_cast hnum
                rcases Nat.min_eq_zero_iff.mp hmin with h | h
                · exact Or.inl (List.length_eq_zero.mp h)
                · exact Or.inr (List.length_eq_zero.mp h)
              · have hmax : max a.length b.length = 0 := by exact_mod_cast hden
                exact Or.inl (List.length_eq_zero.mp (Nat.max_eq_zero_iff.mp hmax).1)
          exact seqRatioQ_zero_of_empty a b hempty hab
        · rw [if_neg hzero]
      · rw [if_neg hsub, if_neg hsub]
        simp

theorem batch_matches_pairwise_fallback_witness :
    simMatrixBatch ["ab", "a", "zz"] 0 1
      = calculateSimilarity (["ab", "a", "zz"].getD 0 "") (["ab", "a", "zz"].getD 1 "") :=
  batch_matches_pairwise_fallback ["ab", "a", "zz"] 0 1 (by decide) (by decide)

/-- The semantic oracle standing for an embedding model that maps the two
keywords to identical vectors (cosine 1). -/
def semAllOne : ℕ → ℕ → ℚ := fun _ _ => 1

unseal Rat.mul Rat.inv Rat.add Rat.sub in
/-- C6 (counterexample): with the semantic model enabled the batch matrix is
not semantically identical to the pairwise form.  For keywords "a" and "abc"
(containment, ratio 1/3) and a model giving them cosine 1, the batch cell
takes the larger semantic score 1, while `_calculate_similarity` returns the
containment heuristic 1/3 without ever consulting the model. -/
theorem batch_semantic_differs_from_pairwise :
    simMatrixBatchSem semAllOne ["a", "abc"] 0 1 = 1
    ∧ calculateSimilaritySem (fun _ _ => 1) "a" "abc" = 1 / 3
    ∧ simMatrixBatchSem semAllOne ["a", "abc"] 0 1
        ≠ calculateSimilaritySem (fun _ _ => 1) "a" "abc" := by
  decide

/-! ## C5: rule precedence vs clustering -/

theorem avgDist_singleton (d : ℕ → ℕ → ℚ) (p q : ℕ) : avgDist d [p] [q] = d p q := by
  unfold avgDist
  simp

theorem mem_posPairs (n : ℕ) (pq : ℕ × ℕ) (h : pq ∈ posPairs n) :
    pq.1 < pq.2 ∧ pq.2 < n := by
  unfold posPairs at h
  rcases List.mem_flatMap.mp h with ⟨p, hp, hmem⟩
  rcases List.mem_map.mp hmem with ⟨q, hq, rfl⟩
  rcases List.mem_filter.mp hq with ⟨hqr, hpq⟩
  exact ⟨by simpa using hpq, List.mem_range.mp hqr⟩

theorem bestPair_ge (d : ℕ → ℕ → ℚ) (dthr : ℚ) (cs : List (List ℕ))
    (h : ∀ pq ∈ posPairs cs.length, dthr ≤ avgDist d (cs.getD pq.1 []) (cs.getD pq.2 [])) :
    ∀ p q dd, bestPair d cs = some (p, q, dd) → dthr ≤ dd := by
  unfold bestPair
  refine foldlRec
    (fun (o : Option (ℕ × ℕ × ℚ)) => ∀ p q dd, o = some (p, q, dd) → dthr ≤ dd)
    _ _ _ (by simp) ?_
  intro acc pq hpq hacc p q dd
  cases acc with
  | none =>
      dsimp only
      intro heq
      rcases Option.some.inj heq with heq2
      have : dd = avgDist d (cs.getD pq.1 []) (cs.getD pq.2 []) :=
        congrArg (Prod.snd ∘ Prod.snd) heq2.symm
      rw [this]
      exact h pq hpq
  | some b =>
      dsimp only
      by_cases hlt : avgDist d (cs.getD pq.1 []) (cs.getD pq.2 []) < b.2.2
      · rw [if_pos hlt]
        intro heq
        rcases Option.some.inj heq with heq2
        have : dd = avgDist d (cs.getD pq.1 []) (cs.getD pq.2 []) :=
          congrArg (Prod.snd ∘ Prod.snd) heq2.symm
        rw [this]
        exact h pq hpq
      · rw [if_neg hlt]
        exact hacc p q dd

theorem avgLinkSteps_no_merge (d : ℕ → ℕ → ℚ) (dthr : ℚ) (fuel : ℕ) (cs : List (List ℕ))
    (h : ∀ pq ∈ posPairs cs.length, dthr ≤ avgDist d (cs.getD pq.1 []) (cs.getD pq.2 [])) :
    avgLinkSteps d dthr fuel cs = cs := by
  cases fuel with
  | zero => rfl
  | succ n =>
      unfold avgLinkSteps
      cases hbp : bestPair d cs with
      | none => rfl
      | some t =>
          obtain ⟨p, q, dd⟩ := t
          have hge : dthr ≤ dd := bestPair_ge d dthr cs h p q dd (by rw [hbp])
          dsimp only
          rw [if_neg (not_lt.mpr hge)]

theorem getD_map_range {α : Type} (f : ℕ → α) (n p : ℕ) (d : α) (hp : p < n) :
    ((List.range n).map f).getD p d = f p := by
  induction n generalizing f p with
  | zero => exact absurd hp (by simp)
  | succ m ih =>
      rw [List.range_succ_eq_map, List.map_cons, List.map_map]
      cases p with
      | zero => rfl
      | succ k =>
          have : ((List.range m).map (f ∘ Nat.succ)).getD k d = (f ∘ Nat.succ) k :=
            ih (f ∘ Nat.succ) k (Nat.lt_of_succ_lt_succ hp)
          exact this

theorem map_getD_range {α : Type} (l : List α) (d : α) :
    (List.range l.length).map (fun i => l.getD i d) = l := by
  induction l with
  | nil => rfl
  | cons a rest ih =>
      rw [show (a :: rest).length = rest.length + 1 from rfl, List.range_succ_eq_map,
        List.map_cons, List.map_map]
      have hcomp : ((fun i => (a :: rest).getD i d) ∘ Nat.succ) = fun i => rest.getD i d :=
        funext (fun i => rfl)
      rw [hcomp, ih]
      rfl

theorem clusterBySimilarity_no_merge (thr : ℚ) (ks : List String)
    (hsep : ∀ j ∈ List.range ks.length, ∀ i ∈ List.range j, simMatrixBatch ks i j ≤ thr) :
    clusterBySimilarity thr ks = ks := by
  unfold clusterBySimilarity
  by_cases hlen : ks.length ≤ 1
  · rw [if_pos hlen]
  · rw [if_neg hlen]
    have hinit : avgLinkClusters (fun i j => 1 - simMatrixBatch ks i j) (1 - thr) ks.length
        = (List.range ks.length).map (fun i => [i]) := by
      unfold avgLinkClusters
      apply avgLinkSteps_no_merge
      intro pq hpq
      rcases mem_posPairs _ pq (by simpa using hpq) with ⟨h1, h2⟩
      rw [getD_map_range _ _ _ _ (lt_trans h1 h2), getD_map_range _ _ _ _ h2,
        avgDist_singleton]
      have hsim : simMatrixBatch ks pq.1 pq.2 ≤ thr :=
        hsep pq.2 (List.mem_range.mpr h2) pq.1 (List.mem_range.mpr h1)
      linarith
    rw [hinit, List.map_map]
    have hcomp : ((fun c => chooseRepresentative (c.map (fun i => ks.getD i ""))) ∘
        fun i => [i]) = fun i => ks.getD i "" :=
      funext (fun i => rfl)
    rw [hcomp]
    exact map_getD_range ks ""

theorem mem_dedupFirstAux_of_mem (x : String) (l : List String) :
    ∀ seen : List String, x ∈ l → x ∈ seen ∨ x ∈ dedupFirstAux l seen := by
  induction l with
  | nil => intro seen hx; simp at hx
  | cons k ks ih =>
      intro seen hx
      unfold dedupFirstAux
      by_cases hk : seen.contains k = true
      · rw [if_pos hk]
        rcases List.mem_cons.mp hx with rfl | hx2
        · exact Or.inl (List.elem_iff.mp hk)
        · exact ih seen hx2
      · rw [if_neg hk]
        rcases List.mem_cons.mp hx with rfl | hx2
        · exact Or.inr (by simp)
        · rcases ih (k :: seen) hx2 with h | h
          · rcases List.mem_cons.mp h with rfl | h2
            · exact Or.inr (by simp)
            · exact Or.inl h2
          · exact Or.inr (by simp [h])

theorem mem_dedupFirst_of_mem (x : String) (l : List String) (hx : x ∈ l) :
    x ∈ dedupFirst l := by
  rcases mem_dedupFirstAux_of_mem x l [] hx with h | h
  · simp at h
  · exact h

/-- C5 (amended): a keyword k of the split value matching a rule of canonical
term T is rewritten to T by the rule pass, and when the clustering pass
performs no merge (every pair of rule-normalized keywords has similarity at
most the threshold) the final encode_field output is the slash-join of the
deduplicated rule-normalized keywords, among which T occurs.  In general the
clustering pass may replace T by a different cluster representative, so the
final output for k is not always T (see the counterexample). -/
theorem rule_precedence_without_merges (thr : ℚ) (ns v k T : String)
    (hk : k ∈ splitKeywords v)
    (hT : ruleFor (specialRules ns) k = some T)
    (hstrip : pyStrip v ≠ "")
    (hsep : ∀ j ∈ List.range (applySpecialRules ns (splitKeywords v)).length,
        ∀ i ∈ List.range j, simMatrixBatch (applySpecialRules ns (splitKeywords v)) i j ≤ thr) :
    encodeField thr ns v
        = String.intercalate "/" (dedupFirst (applySpecialRules ns (splitKeywords v)))
    ∧ T ∈ dedupFirst (applySpecialRules ns (splitKeywords v)) := by
  constructor
  · unfold encodeField
    rw [if_neg (by exact hstrip)]
    have hne : ¬ splitKeywords v = [] := List.ne_nil_of_mem hk
    rw [if_neg hne]
    rw [clusterBySimilarity_no_merge thr _ hsep]
  · apply mem_dedupFirst_of_mem
    have : T = (ruleFor (specialRules ns) k).getD k := by rw [hT]; rfl
    rw [this]
    exact List.mem_map_of_mem (fun k => (ruleFor (specialRules ns) k).getD k) hk

set_option maxRecDepth 20000 in
unseal Rat.mul Rat.inv Rat.add Rat.sub in
theorem rule_precedence_without_merges_witness :
    encodeField (7 / 10) "location" "USA/日本"
        = String.intercalate "/" (dedupFirst (applySpecialRules "location" (splitKeywords "USA/日本")))
    ∧ "美国" ∈ dedupFirst (applySpecialRules "location" (splitKeywords "USA/日本")) :=
  rule_precedence_without_merges (7 / 10) "location" "USA/日本" "USA" "美国"
    (by decide) (by decide) (by decide) (by decide)

set_option maxRecDepth 20000 in
unseal Rat.mul Rat.inv Rat.add Rat.sub in
/-- C5 (counterexample): at the default threshold 0.7, the keyword 自由派
matches the rule variant list of the canonical term 自由主义, yet
`encode_field("political_stance", "自由派/自由义")` returns "自由义": the
clustering pass merges the rule output 自由主义 with 自由义 (difflib ratio
6/7) and elects the shorter 自由义 as representative, overriding the rule
outcome. -/
theorem rule_precedence_overridden_by_clustering :
    ruleFor (specialRules "political_stance") "自由派" = some "自由主义"
    ∧ encodeField (7 / 10) "political_stance" "自由派/自由义" = "自由义" := by
  decide

/-! ## C1: encode_field idempotence -/

theorem head?_dropWhile (p : α → Bool) (l : List α) (x : α)
    (h : (l.dropWhile p).head? = some x) : p x = false := by
  induction l with
  | nil => simp [List.dropWhile] at h
  | cons y ys ih =>
      rw [List.dropWhile_cons] at h
      by_cases hy : p y = true
      · rw [if_pos hy] at h
        exact ih h
      · rw [if_neg hy] at h
        rcases Option.some.inj h with rfl
        exact Bool.eq_false_iff.mpr hy

theorem getLast?_dropWhile (p : α → Bool) (l : List α)
    (h : l.dropWhile p ≠ []) : (l.dropWhile p).getLast? = l.getLast? := by
  induction l with
  | nil => simp [List.dropWhile] at h
  | cons y ys ih =>
      rw [List.dropWhile_cons]
      by_cases hy : p y = true
      · rw [List.dropWhile_cons, if_pos hy] at h
        rw [if_pos hy, ih h]
        have hys : ys ≠ [] := by
          intro hc
          rw [hc] at h
          exact h (by simp [List.dropWhile])
        cases ys with
        | nil => exact absurd rfl hys
        | cons z zs => exact (List.getLast?_cons_cons).symm
      · rw [if_neg hy]

theorem dropWhile_eq_self_of_head (p : α → Bool) (l : List α)
    (h : ∀ x, l.head? = some x → p x = false) : l.dropWhile p = l := by
  cases l with
  | nil => rfl
  | cons y ys =>
      rw [List.dropWhile_cons, if_neg (by rw [h y rfl]; simp)]

theorem pyStripList_idempotent (l : List Char) :
    pyStripList (pyStripList l) = pyStripList l := by
  unfold pyStripList
  set A := l.dropWhile pyWhitespace with hA
  set B := A.reverse.dropWhile pyWhitespace with hB
  by_cases hBnil : B = []
  · rw [hBnil]
    rfl
  · have hstep1 : B.reverse.dropWhile pyWhitespace = B.reverse := by
      apply dropWhile_eq_self_of_head
      intro x hx
      rw [List.head?_reverse] at hx
      rw [hB, getLast?_dropWhile _ _ (by rw [← hB]; exact hBnil), List.getLast?_reverse] at hx
      exact head?_dropWhile pyWhitespace l x (by rw [← hA]; exact hx)
    rw [hstep1, List.reverse_reverse, hB, List.dropWhile_idempotent]

theorem splitSlashAux_no_slash (l acc : List Char) (hacc : ∀ c ∈ acc, c ≠ slashChar) :
    ∀ piece ∈ splitSlashAux l acc, ∀ c ∈ piece, c ≠ slashChar := by
  induction l generalizing acc with
  | nil =>
      intro piece hpiece c hc
      simp only [splitSlashAux, List.mem_singleton] at hpiece
      subst hpiece
      exact hacc c (List.mem_reverse.mp hc)
  | cons x xs ih =>
      intro piece hpiece c hc
      unfold splitSlashAux at hpiece
      by_cases hx : x = slashChar
      · rw [if_pos hx] at hpiece
        rcases List.mem_cons.mp hpiece with rfl | h2
        · exact hacc c (List.mem_reverse.mp hc)
        · exact ih [] (by simp) piece h2 c hc
      · rw [if_neg hx] at hpiece
        refine ih (x :: acc) ?_ piece hpiece c hc
        intro d hd
        rcases List.mem_cons.mp hd with rfl | hd2
        · exact hx
        · exact hacc d hd2

theorem splitSlashAux_of_no_slash (l acc : List Char) (hl : ∀ c ∈ l, c ≠ slashChar) :
    splitSlashAux l acc = [acc.reverse ++ l] := by
  induction l generalizing acc with
  | nil => simp [splitSlashAux]
  | cons x xs ih =>
      unfold splitSlashAux
      rw [if_neg (hl x (by simp))]
      rw [ih (x :: acc) (fun c hc => hl c (by simp [hc]))]
      simp

theorem mem_pyStripList (l : List Char) (c : Char) (hc : c ∈ pyStripList l) : c ∈ l := by
  unfold pyStripList at hc
  rw [List.mem_reverse] at hc
  have h1 := (List.dropWhile_sublist pyWhitespace).mem hc
  rw [List.mem_reverse] at h1
  exact (List.dropWhile_sublist pyWhitespace).mem h1

/-- Every keyword produced by splitKeywords is non-empty, already stripped,
and slash-free; consequently it splits back to itself. -/
theorem splitKeywords_mem_clean (v k : String) (hk : k ∈ splitKeywords v) :
    k ≠ "" ∧ pyStrip k = k ∧ splitKeywords k = [k] := by
  unfold splitKeywords at hk
  rcases List.mem_filterMap.mp hk with ⟨piece, hpiece, hf⟩
  by_cases hnil : pyStripList piece = []
  · rw [if_pos hnil] at hf
    exact absurd hf (by simp)
  · rw [if_neg hnil] at hf
    rcases Option.some.inj hf with rfl
    have hdata : (String.mk (pyStripList piece)).data = pyStripList piece := rfl
    have hne : String.mk (pyStripList piece) ≠ "" := by
      intro hc
      exact hnil (congrArg String.data hc)
    have hstrip : pyStrip (String.mk (pyStripList piece)) = String.mk (pyStripList piece) := by
      unfold pyStrip
      rw [hdata, pyStripList_idempotent]
    have hnoslash : ∀ c ∈ pyStripList piece, c ≠ slashChar := by
      intro c hc
      exact splitSlashAux_no_slash v.data [] (by simp) piece hpiece c (mem_pyStripList piece c hc)
    have hsplit : splitKeywords (String.mk (pyStripList piece)) = [String.mk (pyStripList piece)] := by
      unfold splitKeywords
      rw [hdata, splitSlashAux_of_no_slash _ [] hnoslash, List.reverse_nil, List.nil_append]
      rw [List.filterMap_cons, List.filterMap_nil]
      rw [pyStripList_idempotent]
      dsimp only
      rw [if_neg hnil]
    exact ⟨hne, hstrip, hsplit⟩

/-- encode_field on a value whose keyword list is a single rule-fixed
keyword returns that keyword. -/
theorem encodeField_single (thr : ℚ) (ns v k : String)
    (hstrip : pyStrip v ≠ "")
    (hsplit : splitKeywords v = [k])
    (hrule : applySpecialRules ns [k] = [k]) :
    encodeField thr ns v = k := by
  unfold encodeField
  rw [if_neg hstrip, hsplit, if_neg (by simp), hrule]
  rfl

/-- C1 (amended): encode_field is idempotent on values splitting into one
rule-fixed keyword — in particular re-encoding a single already-canonical
keyword returns it unchanged.  Idempotence fails for multi-keyword values
(see the counterexample): a second pass can merge the first pass's cluster
representatives. -/
theorem encode_field_single_keyword_idempotent (thr : ℚ) (ns v k : String)
    (hstrip : pyStrip v ≠ "")
    (hsplit : splitKeywords v = [k])
    (hrule : applySpecialRules ns [k] = [k]) :
    encodeField thr ns (encodeField thr ns v) = encodeField thr ns v := by
  have hv : encodeField thr ns v = k := encodeField_single thr ns v k hstrip hsplit hrule
  rcases splitKeywords_mem_clean v k (by rw [hsplit]; simp) with ⟨hne, hstripk, hsplitk⟩
  have hk : encodeField thr ns k = k :=
    encodeField_single thr ns k k (by rw [hstripk]; exact hne) hsplitk hrule
  rw [hv, hk]

theorem encode_field_single_keyword_idempotent_witness :
    encodeField (7 / 10) "location" (encodeField (7 / 10) "location" "中国")
      = encodeField (7 / 10) "location" "中国" :=
  encode_field_single_keyword_idempotent (7 / 10) "location" "中国" "中国"
    (by decide) (by decide) (by decide)

set_option maxRecDepth 40000 in
unseal Rat.mul Rat.inv Rat.add Rat.sub in
/-- C1 (counterexample): encode_field is not idempotent.  For the namespace
"funding" (no rules) and the value "abcdef/abcdefVWXYZ/abcdefPQRS", the first
pass clusters abcdef with abcdefPQRS (representative abcdef) and leaves
abcdefVWXYZ alone (the average-linkage distance of the pair to the third
keyword stays above the threshold), returning "abcdef/abcdefVWXYZ"; the
second pass then merges abcdef with abcdefVWXYZ (containment similarity
0.809 above the 0.7 threshold), returning "abcdef". -/
theorem encode_field_not_idempotent :
    encodeField (7 / 10) "funding" "abcdef/abcdefVWXYZ/abcdefPQRS" = "abcdef/abcdefVWXYZ"
    ∧ encodeField (7 / 10) "funding" "abcdef/abcdefVWXYZ" = "abcdef"
    ∧ encodeField (7 / 10) "funding"
        (encodeField (7 / 10) "funding" "abcdef/abcdefVWXYZ/abcdefPQRS")
      ≠ encodeField (7 / 10) "funding" "abcdef/abcdefVWXYZ/abcdefPQRS" := by
  decide

end AutoTopicSum
